import Mathlib

/-!
Verification development for the `bloomy` crate: a Bloom filter
(`src/bloom.rs`) built on a packed bit vector (`src/bitvec.rs`).

Modelling conventions:
* `u8` / `usize` / `u64` values are `Nat`, with explicit `% 2 ^ 64`
  where the Rust code uses wrapping `u64` arithmetic.
* Rust panics (out-of-bounds indexing, division by zero, failed
  `assert!`) are modelled by `Option`: `none` is a panic.
* `f64` arithmetic in the sizing formulas is idealised as real-number
  arithmetic (`ℝ`, `Real.log`); the concrete values proved below are
  far from rounding boundaries, so the idealisation agrees with `f64`
  on them.
* The SipHash-1-3 digests come from the external `siphasher` crate;
  insert/contains are therefore parameterised by the two 64-bit
  digests `h1`, `h2` of the item being inserted or queried.  The two
  fixed hasher seeds are carried as data so that `is_comparable` can
  compare them, exactly as `SipHasher13::keys` comparison does.
-/

namespace Bloomy

/-- Number of bytes backing a bit vector of `capacity` bits,
as computed by `BitVec::new` in `src/bitvec.rs`. -/
def byteLength (capacity : Nat) : Nat :=
  if capacity % 8 = 0 then capacity / 8 else 1 + capacity / 8

/-- `BitVec` from `src/bitvec.rs`: a packed byte buffer plus a logical
bit length.  Bytes are `Nat`s intended to be `< 256`. -/
structure BitVec where
  bytes : List Nat
  nbits : Nat
  deriving DecidableEq, Repr

namespace BitVec

/-- `BitVec::new`: zero-filled vector of the given capacity in bits. -/
def new (capacity : Nat) : BitVec :=
  ⟨List.replicate (byteLength capacity) 0, capacity⟩

/-- `BitVec::len`: length in bits. -/
def len (v : BitVec) : Nat := v.nbits

/-- `BitVec::is_empty`. -/
def is_empty (v : BitVec) : Bool := v.nbits == 0

/-- `BitVec::clear`: set every byte to zero. -/
def clear (v : BitVec) : BitVec :=
  ⟨v.bytes.map (fun _ => 0), v.nbits⟩

/-- `BitVec::set`: set bit `index` to 1.  Panics (`none`) when
`index >= len()`; the subsequent `self.bytes[byte_index]` indexing
panic is also modelled. -/
def set (v : BitVec) (index : Nat) : Option BitVec :=
  if v.len ≤ index then none
  else if h : index / 8 < v.bytes.length then
    some ⟨v.bytes.set (index / 8)
      (v.bytes.get ⟨index / 8, h⟩ ||| (1 <<< (index % 8))), v.nbits⟩
  else none

/-- `BitVec::is_set`: test bit `index`.  Panics (`none`) when
`index >= len()`, as well as on out-of-range byte indexing. -/
def is_set (v : BitVec) (index : Nat) : Option Bool :=
  if v.len ≤ index then none
  else if h : index / 8 < v.bytes.length then
    some ((v.bytes.get ⟨index / 8, h⟩ &&& (1 <<< (index % 8))) == (1 <<< (index % 8)))
  else none

/-- `u8::count_ones` for a byte value (`< 256`). -/
def byteOnes (b : Nat) : Nat :=
  (List.range 8).countP (fun k => b.testBit k)

/-- `BitVec::count_ones`: population count of the byte buffer. -/
def count_ones (v : BitVec) : Nat :=
  (v.bytes.map byteOnes).sum

/-- `BitVec::count_zeros` = `len() - count_ones()` (usize subtraction,
modelled by truncated `Nat` subtraction; the invariant below shows it
never truncates on reachable vectors). -/
def count_zeros (v : BitVec) : Nat :=
  v.len - v.count_ones

/-- `BitVec::union`: bitwise OR; panics (`none`) when lengths differ. -/
def union (a b : BitVec) : Option BitVec :=
  if a.nbits ≠ b.nbits then none
  else some ⟨List.zipWith (· ||| ·) a.bytes b.bytes, a.nbits⟩

/-- `BitVec::intersection`: bitwise AND; panics (`none`) when lengths
differ. -/
def intersection (a b : BitVec) : Option BitVec :=
  if a.nbits ≠ b.nbits then none
  else some ⟨List.zipWith (· &&& ·) a.bytes b.bytes, a.nbits⟩

/-- `From<Vec<u8>> for BitVec`: `nbits = bytes.len() * 8`. -/
def fromBytes (bytes : List Nat) : BitVec :=
  ⟨bytes, bytes.length * 8⟩

/-- `From<BitVec> for Vec<u8>` / `BitVec::as_bytes`. -/
def toBytes (v : BitVec) : List Nat := v.bytes

/-- Proof-level accessor: the value of bit `j` read straight from the
byte buffer (LSB-first within each byte, missing bytes read as 0). -/
def bit (v : BitVec) (j : Nat) : Bool :=
  (v.bytes.getD (j / 8) 0).testBit (j % 8)

/-- Representation invariant of `BitVec` (spec section 3): the byte
buffer has exactly `ceil(nbits/8)` bytes, every byte is a `u8` value,
and all padding bits at positions `>= nbits` of the tail byte are 0. -/
def WF (v : BitVec) : Prop :=
  v.bytes.length = byteLength v.nbits ∧
  (∀ b ∈ v.bytes, b < 256) ∧
  (∀ j, j < v.bytes.length → ∀ k, k < 8 → v.nbits ≤ 8 * j + k →
    (v.bytes.getD j 0).testBit k = false)

instance (v : BitVec) : Decidable (WF v) := by
  unfold WF; infer_instance

/-- The bit vectors reachable through the public API of
`src/bitvec.rs` (constructors and vector-producing operations; the
`From<Vec<u8>>` conversion takes genuine `u8` bytes, i.e. values
`< 256`). -/
inductive Reachable : BitVec → Prop
  | new (n : Nat) : Reachable (new n)
  | fromBytes (bs : List Nat) (h : ∀ x ∈ bs, x < 256) : Reachable (fromBytes bs)
  | set (v w : BitVec) (i : Nat) : Reachable v → v.set i = some w → Reachable w
  | clear (v : BitVec) : Reachable v → Reachable v.clear
  | union (a b u : BitVec) : Reachable a → Reachable b →
      a.union b = some u → Reachable u
  | intersection (a b u : BitVec) : Reachable a → Reachable b →
      a.intersection b = some u → Reachable u

end BitVec

/-- `f64::round` (round half away from zero), on the real model. -/
noncomputable def rustRound (x : ℝ) : ℤ :=
  if 0 ≤ x then ⌊x + 1 / 2⌋ else -⌊-x + 1 / 2⌋

/-- `LN_SQR = LN_2 * LN_2` from `src/bloom.rs`. -/
noncomputable def LN_SQR : ℝ := Real.log 2 * Real.log 2

/-- `DEFAULT_FALSE_POSITIVE_RATE = 0.01`. -/
noncomputable def DEFAULT_FALSE_POSITIVE_RATE : ℝ := 0.01

/-- `optimal_bits(capacity, fp_rate)` from `src/bloom.rs`:
`(-((fp_rate.ln() * capacity as f64) / LN_SQR)).ceil() as usize`
(the `as usize` cast clamps negatives to 0, modelled by `Int.toNat`). -/
noncomputable def optimal_bits (capacity : Nat) (fp_rate : ℝ) : Nat :=
  (Int.ceil (-(Real.log fp_rate * (capacity : ℝ) / LN_SQR))).toNat

/-- `optimal_capacity(nbits, fp_rate)` from `src/bloom.rs`:
`((-(nbits as f64) * LN_SQR) / fp_rate.ln()).round() as usize`. -/
noncomputable def optimal_capacity (nbits : Nat) (fp_rate : ℝ) : Nat :=
  (rustRound (-(nbits : ℝ) * LN_SQR / Real.log fp_rate)).toNat

/-- `optimal_hashes(nbits, capacity)` from `src/bloom.rs`:
`(((nbits / capacity) as f64) * LN_2).ceil() as usize`.
`nbits / capacity` is *integer* (`usize`) division, performed before
the `f64` conversion; it panics (`none`) when `capacity = 0`. -/
noncomputable def optimal_hashes (nbits capacity : Nat) : Option Nat :=
  if capacity = 0 then none
  else some (Int.ceil (((nbits / capacity : Nat) : ℝ) * Real.log 2)).toNat

/-- The hash-count formula as worded by the spec ("k = ceil((m /
capacity) * ln 2)" with exact real-valued division), for comparison
with the source's `optimal_hashes`. -/
noncomputable def optimal_hashes_spec (nbits capacity : Nat) : Nat :=
  (Int.ceil ((nbits : ℝ) / (capacity : ℝ) * Real.log 2)).toNat

/-- The two fixed 16-byte SipHash seeds (`HASHER_SEEDS`). -/
def HASHER_SEEDS : List Nat × List Nat :=
  ([136, 168, 28, 251, 141, 239, 69, 38, 166, 209, 98, 201, 2, 169, 146, 170],
   [103, 236, 177, 212, 54, 11, 66, 5, 194, 86, 6, 254, 82, 93, 203, 37])

/-- `BloomFilter<K>` from `src/bloom.rs`.  The `PhantomData<K>` marker
has no runtime content and is omitted; the two `SipHasher13` instances
are represented by their seed keys (all the code ever does with them,
besides hashing items, is compare keys in `is_comparable`). -/
structure BloomFilter where
  bits : BitVec
  nhashes : Nat
  hashers : List Nat × List Nat
  deriving DecidableEq, Repr

namespace BloomFilter

/-- `BloomFilter::bits()`. -/
def bitsLen (f : BloomFilter) : Nat := f.bits.len

/-- `BloomFilter::hashes()`. -/
def hashes (f : BloomFilter) : Nat := f.nhashes

/-- The bit position produced by enhanced double hashing:
`(h1 + i*h2 + i^3)` in wrapping `u64` arithmetic, reduced `mod nbits`.
(Defined on raw data so that it is visibly a function of the bit count
only; `bloomHash` below wraps it with the division-by-zero panic.) -/
def probe (nbits h1 h2 i : Nat) : Nat :=
  (h1 + i * h2 + i ^ 3) % 2 ^ 64 % nbits

/-- `BloomFilter::bloom_hash(h1, h2, i)`:
`h1.wrapping_add(i.wrapping_mul(h2)).wrapping_add(i.pow(3)) % self.bits()`.
The final `%` panics (`none`) when the filter has zero bits. -/
def bloomHash (f : BloomFilter) (h1 h2 i : Nat) : Option Nat :=
  if f.bits.nbits = 0 then none
  else some (probe f.bits.nbits h1 h2 i)

/-- The loop body of `BloomFilter::insert`, iterating
`i in 0..nhashes` (here: current index `i`, remaining iterations `n`). -/
def insertFrom (h1 h2 : Nat) : Nat → Nat → BloomFilter → Option BloomFilter
  | _, 0, f => some f
  | i, n + 1, f =>
    match f.bloomHash h1 h2 i with
    | none => none
    | some idx =>
      match f.bits.set idx with
      | none => none
      | some b => insertFrom h1 h2 (i + 1) n ⟨b, f.nhashes, f.hashers⟩

/-- `BloomFilter::insert(item)`, parameterised by the two SipHash
digests of the item. -/
def insert (f : BloomFilter) (h1 h2 : Nat) : Option BloomFilter :=
  insertFrom h1 h2 0 f.nhashes f

/-- The loop body of `BloomFilter::contains`, with the source's early
`return false` on the first unset probe. -/
def containsFrom (h1 h2 : Nat) : Nat → Nat → BloomFilter → Option Bool
  | _, 0, _ => some true
  | i, n + 1, f =>
    match f.bloomHash h1 h2 i with
    | none => none
    | some idx =>
      match f.bits.is_set idx with
      | none => none
      | some b => if b then containsFrom h1 h2 (i + 1) n f else some false

/-- `BloomFilter::contains(item)`, parameterised by the item's digests. -/
def contains (f : BloomFilter) (h1 h2 : Nat) : Option Bool :=
  containsFrom h1 h2 0 f.nhashes f

/-- `BloomFilter::clear`. -/
def clear (f : BloomFilter) : BloomFilter :=
  ⟨f.bits.clear, f.nhashes, f.hashers⟩

/-- `BloomFilter::count()`: the cardinality estimator
`-(nbits/nhashes) * ln(1 - nbits_set/nbits)`, rounded and cast to
`usize`. -/
noncomputable def count (f : BloomFilter) : Nat :=
  (rustRound (-((f.bits.len : ℝ) / (f.nhashes : ℝ)) *
    Real.log (1 - (f.bits.count_ones : ℝ) / (f.bits.len : ℝ)))).toNat

/-- `BloomFilter::is_comparable`: equal hash counts, equal bit-vector
lengths and equal hasher keys. -/
def is_comparable (a b : BloomFilter) : Bool :=
  a.nhashes == b.nhashes && a.bits.len == b.bits.len &&
    a.hashers.1 == b.hashers.1 && a.hashers.2 == b.hashers.2

/-- `BloomFilter::union`: asserts `is_comparable` (panic = `none`),
then ORs the bit vectors; the result keeps `self`'s configuration. -/
def union (a b : BloomFilter) : Option BloomFilter :=
  if a.is_comparable b then
    (a.bits.union b.bits).map (fun bv => ⟨bv, a.nhashes, a.hashers⟩)
  else none

/-- `BloomFilter::intersection`: asserts `is_comparable`, then ANDs
the bit vectors. -/
def intersection (a b : BloomFilter) : Option BloomFilter :=
  if a.is_comparable b then
    (a.bits.intersection b.bits).map (fun bv => ⟨bv, a.nhashes, a.hashers⟩)
  else none

/-- `BloomFilter::similarity`: asserts `is_comparable`, then the
Jaccard estimate `intersection.count() / union.count()` as `f64`. -/
noncomputable def similarity (a b : BloomFilter) : Option ℝ :=
  if a.is_comparable b then do
    let i ← a.intersection b
    let u ← a.union b
    pure ((i.count : ℝ) / (u.count : ℝ))
  else none

/-- `BloomFilter::overlap`: asserts `is_comparable`, then
`intersection.count() / min(self.count(), other.count())` as `f64`. -/
noncomputable def overlap (a b : BloomFilter) : Option ℝ :=
  if a.is_comparable b then do
    let i ← a.intersection b
    pure ((i.count : ℝ) / ((min a.count b.count : Nat) : ℝ))
  else none

/-- `BloomFilter::with_rate(capacity, fp_rate)`. -/
noncomputable def with_rate (capacity : Nat) (fp_rate : ℝ) : Option BloomFilter := do
  let nbits := optimal_bits capacity fp_rate
  let nhashes ← optimal_hashes nbits capacity
  pure ⟨BitVec.new nbits, nhashes, HASHER_SEEDS⟩

/-- `BloomFilter::new(capacity)` = `with_rate(capacity, 0.01)`. -/
noncomputable def new (capacity : Nat) : Option BloomFilter :=
  with_rate capacity DEFAULT_FALSE_POSITIVE_RATE

/-- `BloomFilter::with_size(nbytes)`. -/
noncomputable def with_size (nbytes : Nat) : Option BloomFilter := do
  let nbits := nbytes * 8
  let capacity := optimal_capacity nbits DEFAULT_FALSE_POSITIVE_RATE
  let nhashes ← optimal_hashes nbits capacity
  pure ⟨BitVec.new nbits, nhashes, HASHER_SEEDS⟩

/-- `From<Vec<u8>> for BloomFilter`: rebuild a filter from raw bytes
under the default false-positive rate. -/
noncomputable def fromBytes (bytes : List Nat) : Option BloomFilter := do
  let bits := BitVec.fromBytes bytes
  let capacity := optimal_capacity bits.len DEFAULT_FALSE_POSITIVE_RATE
  let nhashes ← optimal_hashes bits.len capacity
  pure ⟨bits, nhashes, HASHER_SEEDS⟩

/-- `From<BloomFilter> for Vec<u8>`. -/
def toBytes (f : BloomFilter) : List Nat := f.bits.bytes

/-- `PartialEq for BloomFilter`: equal bit vectors and hash counts
(hashers are not compared). -/
def filterEq (a b : BloomFilter) : Prop :=
  a.bits = b.bits ∧ a.nhashes = b.nhashes

instance (a b : BloomFilter) : Decidable (filterEq a b) := by
  unfold filterEq; infer_instance

/-- `N` successive `insert`s of the same item. -/
def insertN (h1 h2 : Nat) : Nat → BloomFilter → Option BloomFilter
  | 0, f => some f
  | n + 1, f => (f.insert h1 h2).bind (insertN h1 h2 n)

/-- A sequence of `insert`s of arbitrary items (given by digest pairs). -/
def insertMany : List (Nat × Nat) → BloomFilter → Option BloomFilter
  | [], f => some f
  | p :: ps, f => (f.insert p.1 p.2).bind (insertMany ps)

end BloomFilter

/-! ### Helper lemmas about the bit-vector layer -/

namespace BitVec

lemma mask_eq (k : Nat) : 1 <<< k = 2 ^ k := by
  rw [Nat.shiftLeft_eq, one_mul]

lemma and_mask_beq (b k : Nat) :
    ((b &&& (1 <<< k)) == (1 <<< k)) = b.testBit k := by
  rw [mask_eq, Nat.and_two_pow]
  cases h : b.testBit k
  · simp only [Bool.toNat_false, Nat.zero_mul, beq_eq_false_iff_ne, ne_eq]
    exact (Nat.two_pow_pos k).ne
  · simp

lemma or_mask_self {b k : Nat} (h : b.testBit k = true) :
    b ||| 2 ^ k = b := by
  apply Nat.eq_of_testBit_eq
  intro t
  rw [Nat.testBit_or, Nat.testBit_two_pow]
  by_cases ht : k = t
  · subst ht; simp [h]
  · simp [ht]

lemma div8_lt_byteLength {i n : Nat} (h : i < n) : i / 8 < byteLength n := by
  unfold byteLength; split <;> omega

/-- Full characterisation of a successful `set`. -/
lemma set_spec {v w : BitVec} {i : Nat} (h : v.set i = some w) :
    i < v.nbits ∧ i / 8 < v.bytes.length ∧
    w.nbits = v.nbits ∧ w.bytes.length = v.bytes.length ∧
    (∀ j, bit w j = (bit v j || decide (j = i))) ∧
    w.bytes = v.bytes.set (i / 8) (v.bytes.getD (i / 8) 0 ||| 1 <<< (i % 8)) := by
  unfold set at h
  split at h
  · exact absurd h (by simp)
  · next hlt =>
    split at h
    · next hb =>
      simp only [Option.some.injEq] at h
      subst h
      unfold len at hlt
      refine ⟨by omega, hb, rfl, by simp, ?_, ?_⟩
      case refine_2 =>
        simp only
        congr 2
        rw [List.get_eq_getElem, List.getD_eq_getElem?_getD,
          List.getElem?_eq_getElem hb, Option.getD_some]
      intro j
      unfold bit
      simp only [List.getD_eq_getElem?_getD]
      by_cases hj : j / 8 = i / 8
      · rw [hj, List.getElem?_set_self (by exact hb), Option.getD_some,
          List.getElem?_eq_getElem hb, Option.getD_some, mask_eq,
          Nat.testBit_or, Nat.testBit_two_pow, List.get_eq_getElem]
        by_cases hm : j % 8 = i % 8
        · have hji : j = i := by omega
          subst hji
          simp
        · have hji : ¬ j = i := by omega
          rw [decide_eq_false (by omega : ¬ i % 8 = j % 8), decide_eq_false hji]
      · have hji : ¬ j = i := fun he => hj (he ▸ rfl)
        rw [List.getElem?_set_ne (fun he => hj (he.symm)), decide_eq_false hji]
        simp
    · exact absurd h (by simp)

lemma set_isSome_iff {v : BitVec} {i : Nat} (hWF : WF v) :
    (v.set i).isSome ↔ i < v.nbits := by
  constructor
  · intro h
    obtain ⟨w, hw⟩ := Option.isSome_iff_exists.mp h
    exact (set_spec hw).1
  · intro h
    unfold set len
    rw [if_neg (by omega), dif_pos (hWF.1 ▸ div8_lt_byteLength h)]
    simp

lemma is_set_eq_bit {v : BitVec} {i : Nat} (h1 : i < v.nbits)
    (h2 : i / 8 < v.bytes.length) :
    v.is_set i = some (bit v i) := by
  unfold is_set len
  rw [if_neg (by omega), dif_pos h2]
  rw [and_mask_beq]
  unfold bit
  congr 1
  rw [List.get_eq_getElem, List.getD_eq_getElem?_getD, List.getElem?_eq_getElem h2,
    Option.getD_some]

lemma is_set_isSome_iff {v : BitVec} {i : Nat} (hWF : WF v) :
    (v.is_set i).isSome ↔ i < v.nbits := by
  constructor
  · intro h
    unfold is_set len at h
    by_cases hi : v.nbits ≤ i
    · rw [if_pos hi] at h; simp at h
    · omega
  · intro h
    rw [is_set_eq_bit h (hWF.1 ▸ div8_lt_byteLength h)]
    simp

/-- Setting a bit that is already set returns the vector unchanged. -/
lemma set_self {v : BitVec} {i : Nat} (hbit : bit v i = true)
    (h1 : i < v.nbits) (h2 : i / 8 < v.bytes.length) :
    v.set i = some v := by
  unfold set len
  rw [if_neg (by omega), dif_pos h2]
  congr 1
  have hb : (v.bytes.get ⟨i / 8, h2⟩).testBit (i % 8) = true := by
    unfold bit at hbit
    rw [List.get_eq_getElem]
    rw [List.getD_eq_getElem?_getD, List.getElem?_eq_getElem h2, Option.getD_some] at hbit
    exact hbit
  have : v.bytes.get ⟨i / 8, h2⟩ ||| 1 <<< (i % 8) = v.bytes.get ⟨i / 8, h2⟩ := by
    rw [mask_eq]; exact or_mask_self hb
  rw [this]
  cases v with
  | mk bs nb =>
    simp only [BitVec.mk.injEq, and_true]
    apply List.ext_getElem (by simp)
    intro j hj hj'
    rw [List.getElem_set]
    split
    · next he => subst he; simp
    · rfl

lemma bit_decompose {k : Nat} (hk : k < 8) (v : BitVec) (j : Nat) :
    bit v (8 * j + k) = (v.bytes.getD j 0).testBit k := by
  have h1 : (8 * j + k) / 8 = j := by omega
  have h2 : (8 * j + k) % 8 = k := by omega
  rw [bit, h1, h2]

lemma wf_new (n : Nat) : WF (new n) := by
  refine ⟨by simp [new], ?_, ?_⟩
  · intro b hb
    rw [new] at hb
    simp only [List.mem_replicate] at hb
    omega
  · intro j hj k hk hnk
    rw [new]
    simp only
    rcases Nat.lt_or_ge j (byteLength n) with h | h
    · rw [List.getD_eq_getElem?_getD, List.getElem?_eq_getElem (by simpa using h)]
      simp
    · rw [List.getD_eq_getElem?_getD, List.getElem?_eq_none (by simpa using h)]
      simp

lemma wf_clear {v : BitVec} (h : WF v) : WF v.clear := by
  refine ⟨by simpa [clear] using h.1, ?_, ?_⟩
  · intro b hb
    rw [clear] at hb
    simp only [List.mem_map] at hb
    obtain ⟨_, _, hb⟩ := hb
    omega
  · intro j hj k hk hnk
    rw [clear] at hj ⊢
    simp only [List.length_map] at hj
    simp only [List.getD_eq_getElem?_getD, List.getElem?_map,
      List.getElem?_eq_getElem hj]
    simp

lemma wf_fromBytes {bs : List Nat} (h : ∀ x ∈ bs, x < 256) : WF (fromBytes bs) := by
  refine ⟨?_, h, ?_⟩
  · rw [fromBytes, byteLength]
    simp only
    split <;> omega
  · intro j hj k hk hnk
    rw [fromBytes] at hj hnk
    simp only at hj hnk
    omega

lemma wf_set {v w : BitVec} {i : Nat} (hWF : WF v) (h : v.set i = some w) :
    WF w := by
  obtain ⟨hi, hib, hn, hl, hbit, hbytes⟩ := set_spec h
  refine ⟨by rw [hl, hn]; exact hWF.1, ?_, ?_⟩
  · intro b hb
    obtain ⟨m, hm, hmb⟩ := List.mem_iff_getElem.mp hb
    have hmv : m < v.bytes.length := by omega
    have hget : w.bytes[m] =
        if i / 8 = m then v.bytes.getD (i / 8) 0 ||| 1 <<< (i % 8)
        else v.bytes[m] := by
      have := hbytes
      rw [List.getElem_of_eq this hm, List.getElem_set]
    rw [hget] at hmb
    have hv256 : v.bytes[m] < 256 := hWF.2.1 _ (List.getElem_mem _)
    split at hmb
    · subst hmb
      have h256 : v.bytes.getD (i / 8) 0 < 2 ^ 8 := by
        rw [List.getD_eq_getElem?_getD, List.getElem?_eq_getElem hib]
        simpa using hWF.2.1 _ (List.getElem_mem _)
      rw [mask_eq]
      have hp : (2 : Nat) ^ (i % 8) < 2 ^ 8 :=
        Nat.pow_lt_pow_right (by norm_num) (Nat.mod_lt _ (by norm_num))
      simpa using Nat.or_lt_two_pow h256 hp
    · omega
  · intro j hj k hk hnk
    have hnk' : v.nbits ≤ 8 * j + k := by omega
    have hne : ¬ 8 * j + k = i := by omega
    rw [← bit_decompose hk, hbit, decide_eq_false hne, Bool.or_false,
      bit_decompose hk]
    exact hWF.2.2 j (by omega) k hk hnk'

lemma getD_zipWith_or {xs ys : List Nat} {m : Nat}
    (hx : m < xs.length) (hy : m < ys.length) :
    (List.zipWith (· ||| ·) xs ys).getD m 0 = xs.getD m 0 ||| ys.getD m 0 := by
  rw [List.getD_eq_getElem?_getD, List.getD_eq_getElem?_getD,
    List.getD_eq_getElem?_getD, List.getElem?_zipWith,
    List.getElem?_eq_getElem hx, List.getElem?_eq_getElem hy]
  simp

lemma getD_zipWith_and {xs ys : List Nat} {m : Nat}
    (hx : m < xs.length) (hy : m < ys.length) :
    (List.zipWith (· &&& ·) xs ys).getD m 0 = xs.getD m 0 &&& ys.getD m 0 := by
  rw [List.getD_eq_getElem?_getD, List.getD_eq_getElem?_getD,
    List.getD_eq_getElem?_getD, List.getElem?_zipWith,
    List.getElem?_eq_getElem hx, List.getElem?_eq_getElem hy]
  simp

lemma union_spec {a b u : BitVec} (h : a.union b = some u) :
    a.nbits = b.nbits ∧ u.nbits = a.nbits ∧
    u.bytes = List.zipWith (· ||| ·) a.bytes b.bytes := by
  unfold union at h
  split at h
  · exact absurd h (by simp)
  · next hne =>
    simp only [Option.some.injEq] at h
    subst h
    exact ⟨by omega, rfl, rfl⟩

lemma intersection_spec {a b u : BitVec} (h : a.intersection b = some u) :
    a.nbits = b.nbits ∧ u.nbits = a.nbits ∧
    u.bytes = List.zipWith (· &&& ·) a.bytes b.bytes := by
  unfold intersection at h
  split at h
  · exact absurd h (by simp)
  · next hne =>
    simp only [Option.some.injEq] at h
    subst h
    exact ⟨by omega, rfl, rfl⟩

lemma wf_union {a b u : BitVec} (ha : WF a) (hb : WF b) (h : a.union b = some u) :
    WF u := by
  obtain ⟨hab, hun, hub⟩ := union_spec h
  have hlen : a.bytes.length = b.bytes.length := by
    rw [ha.1, hb.1, hab]
  have hulen : u.bytes.length = a.bytes.length := by
    rw [hub, List.length_zipWith]; omega
  refine ⟨by rw [hulen, hun]; exact ha.1, ?_, ?_⟩
  · intro x hx
    obtain ⟨m, hm, hmb⟩ := List.mem_iff_getElem.mp hx
    have hma : m < a.bytes.length := by omega
    have hmbl : m < b.bytes.length := by omega
    have hx? : u.bytes[m]? = some x := by
      rw [List.getElem?_eq_getElem hm, hmb]
    rw [hub, List.getElem?_zipWith, List.getElem?_eq_getElem hma,
      List.getElem?_eq_getElem hmbl] at hx?
    simp only [Option.some.injEq] at hx?
    have h1 : a.bytes[m] < 2 ^ 8 := by
      simpa using ha.2.1 _ (List.getElem_mem _)
    have h2 : b.bytes[m] < 2 ^ 8 := by
      simpa using hb.2.1 _ (List.getElem_mem _)
    rw [← hx?]
    simpa using Nat.or_lt_two_pow h1 h2
  · intro j hj k hk hnk
    have hja : j < a.bytes.length := by omega
    have hjb : j < b.bytes.length := by omega
    rw [hub, getD_zipWith_or hja hjb, Nat.testBit_or,
      ha.2.2 j hja k hk (by omega),
      hb.2.2 j hjb k hk (by rw [← hab]; omega)]
    rfl

lemma wf_intersection {a b u : BitVec} (ha : WF a) (hb : WF b)
    (h : a.intersection b = some u) : WF u := by
  obtain ⟨hab, hun, hub⟩ := intersection_spec h
  have hlen : a.bytes.length = b.bytes.length := by
    rw [ha.1, hb.1, hab]
  have hulen : u.bytes.length = a.bytes.length := by
    rw [hub, List.length_zipWith]; omega
  refine ⟨by rw [hulen, hun]; exact ha.1, ?_, ?_⟩
  · intro x hx
    obtain ⟨m, hm, hmb⟩ := List.mem_iff_getElem.mp hx
    have hma : m < a.bytes.length := by omega
    have hmbl : m < b.bytes.length := by omega
    have hx? : u.bytes[m]? = some x := by
      rw [List.getElem?_eq_getElem hm, hmb]
    rw [hub, List.getElem?_zipWith, List.getElem?_eq_getElem hma,
      List.getElem?_eq_getElem hmbl] at hx?
    simp only [Option.some.injEq] at hx?
    have h1 : a.bytes[m] < 256 := ha.2.1 _ (List.getElem_mem _)
    rw [← hx?]
    exact Nat.lt_of_le_of_lt Nat.and_le_left h1
  · intro j hj k hk hnk
    have hja : j < a.bytes.length := by omega
    have hjb : j < b.bytes.length := by omega
    rw [hub, getD_zipWith_and hja hjb, Nat.testBit_and,
      ha.2.2 j hja k hk (by omega)]
    rfl

lemma byteOnes_le_eight (b : Nat) : byteOnes b ≤ 8 := by
  unfold byteOnes
  calc (List.range 8).countP (fun k => b.testBit k) ≤ (List.range 8).length :=
        List.countP_le_length _
    _ = 8 := by simp

lemma byteOnes_le_of_high_bits_clear {b m : Nat} (hm : m < 8)
    (h : ∀ k, k < 8 → m ≤ k → b.testBit k = false) : byteOnes b ≤ m := by
  have hmono : byteOnes b ≤ (List.range 8).countP (fun k => decide (k < m)) := by
    apply List.countP_mono_left
    intro x hx hp
    simp only [List.mem_range] at hx
    simp only [decide_eq_true_eq]
    by_contra hxm
    rw [h x hx (by omega)] at hp
    exact absurd hp (by simp)
  have hcount : (List.range 8).countP (fun k => decide (k < m)) = m := by
    interval_cases m <;> decide
  omega

lemma sum_byteOnes_le (bs : List Nat) (m : Nat)
    (h : ∀ j, j < bs.length → ∀ k, k < 8 → m ≤ 8 * j + k →
      (bs.getD j 0).testBit k = false) :
    (bs.map byteOnes).sum ≤ m := by
  induction bs generalizing m with
  | nil => simp
  | cons b bs ih =>
    have hb0 : ∀ k, k < 8 → m ≤ k → b.testBit k = false := by
      intro k hk hmk
      have := h 0 (by simp) k hk (by omega)
      simpa using this
    have htail : (bs.map byteOnes).sum ≤ m - 8 := by
      apply ih
      intro j hj k hk hmk
      have := h (j + 1) (by simpa using Nat.succ_lt_succ hj) k hk (by omega)
      simpa using this
    rcases Nat.lt_or_ge m 8 with hm | hm
    · have hhead : byteOnes b ≤ m := byteOnes_le_of_high_bits_clear hm hb0
      have : (bs.map byteOnes).sum = 0 := by omega
      simp only [List.map_cons, List.sum_cons]
      omega
    · have hhead : byteOnes b ≤ 8 := byteOnes_le_eight b
      simp only [List.map_cons, List.sum_cons]
      omega

lemma count_ones_le_len {v : BitVec} (h : WF v) : v.count_ones ≤ v.len := by
  exact sum_byteOnes_le v.bytes v.nbits h.2.2

lemma is_set_spec {v : BitVec} {i : Nat} {b : Bool} (h : v.is_set i = some b) :
    i < v.nbits ∧ i / 8 < v.bytes.length ∧ b = bit v i := by
  unfold is_set len at h
  split at h
  · exact absurd h (by simp)
  · next hlt =>
    split at h
    · next hb =>
      simp only [Option.some.injEq] at h
      refine ⟨by omega, hb, ?_⟩
      rw [← h, and_mask_beq]
      unfold bit
      rw [List.get_eq_getElem, List.getD_eq_getElem?_getD,
        List.getElem?_eq_getElem hb, Option.getD_some]
    · exact absurd h (by simp)

lemma bit_union {a b u : BitVec} {j : Nat} (h : a.union b = some u)
    (hja : j / 8 < a.bytes.length) (hjb : j / 8 < b.bytes.length) :
    bit u j = (bit a j || bit b j) := by
  obtain ⟨_, _, hub⟩ := union_spec h
  unfold bit
  rw [hub, getD_zipWith_or hja hjb, Nat.testBit_or]

lemma wf_reachable {v : BitVec} (h : Reachable v) : WF v := by
  induction h with
  | new n => exact wf_new n
  | fromBytes bs hb => exact wf_fromBytes hb
  | set v w i _ hs ih => exact wf_set ih hs
  | clear v _ ih => exact wf_clear ih
  | union a b u _ _ hu iha ihb => exact wf_union iha ihb hu
  | intersection a b u _ _ hu iha ihb => exact wf_intersection iha ihb hu

end BitVec

/-! ### Helper lemmas about the filter layer -/

namespace BloomFilter

lemma probe_lt {nbits : Nat} (h : 0 < nbits) (h1 h2 i : Nat) :
    probe nbits h1 h2 i < nbits :=
  Nat.mod_lt _ h

lemma bloomHash_eq {f : BloomFilter} (h : f.bits.nbits ≠ 0) (h1 h2 i : Nat) :
    f.bloomHash h1 h2 i = some (probe f.bits.nbits h1 h2 i) := by
  unfold bloomHash
  rw [if_neg h]

lemma is_comparable_spec {a b : BloomFilter} :
    a.is_comparable b = true ↔
      a.nhashes = b.nhashes ∧ a.bits.nbits = b.bits.nbits ∧
      a.hashers.1 = b.hashers.1 ∧ a.hashers.2 = b.hashers.2 := by
  unfold is_comparable BitVec.len
  simp only [Bool.and_eq_true, beq_iff_eq]
  tauto

lemma union_filter_spec {a b u : BloomFilter} (h : a.union b = some u) :
    a.is_comparable b = true ∧ u.nhashes = a.nhashes ∧
    u.hashers = a.hashers ∧ a.bits.union b.bits = some u.bits := by
  unfold union at h
  split at h
  · next hc =>
    obtain ⟨bv, hbv, hu⟩ := Option.map_eq_some'.mp h
    subst hu
    exact ⟨hc, rfl, rfl, hbv⟩
  · exact absurd h (by simp)

/-- What a successful `insert` loop guarantees: the configuration and
byte-buffer length are unchanged, already-set bits stay set, and every
probed position ends up set, in bounds, and byte-addressable. -/
lemma insertFrom_some {h1 h2 : Nat} :
    ∀ n i (f g : BloomFilter), insertFrom h1 h2 i n f = some g →
      g.bits.nbits = f.bits.nbits ∧ g.nhashes = f.nhashes ∧
      g.hashers = f.hashers ∧
      g.bits.bytes.length = f.bits.bytes.length ∧
      (∀ j, BitVec.bit f.bits j = true → BitVec.bit g.bits j = true) ∧
      (∀ m, i ≤ m → m < i + n →
        BitVec.bit g.bits (probe f.bits.nbits h1 h2 m) = true ∧
        probe f.bits.nbits h1 h2 m < f.bits.nbits ∧
        probe f.bits.nbits h1 h2 m / 8 < f.bits.bytes.length) := by
  intro n
  induction n with
  | zero =>
    intro i f g h
    unfold insertFrom at h
    simp only [Option.some.injEq] at h
    subst h
    exact ⟨rfl, rfl, rfl, rfl, fun j hj => hj, fun m hm hm' => by omega⟩
  | succ n ih =>
    intro i f g h
    unfold insertFrom at h
    cases hbh : f.bloomHash h1 h2 i with
    | none => rw [hbh] at h; exact absurd h (by simp)
    | some idx =>
      rw [hbh] at h
      dsimp only at h
      have hn0 : f.bits.nbits ≠ 0 := by
        unfold bloomHash at hbh
        by_contra hc
        rw [if_pos hc] at hbh
        exact absurd hbh (by simp)
      have hidx : idx = probe f.bits.nbits h1 h2 i := by
        rw [bloomHash_eq hn0] at hbh
        simpa using hbh.symm
      cases hset : f.bits.set idx with
      | none => rw [hset] at h; exact absurd h (by simp)
      | some b =>
        rw [hset] at h
        dsimp only at h
        obtain ⟨hilt, hib, hbn, hbl, hbit, _⟩ := BitVec.set_spec hset
        obtain ⟨ihn, ihh, ihs, ihl, ihmono, ihpos⟩ :=
          ih (i + 1) ⟨b, f.nhashes, f.hashers⟩ g h
        simp only at ihn ihh ihs ihl ihmono ihpos
        rw [hbn] at ihn ihpos
        rw [hbl] at ihl ihpos
        refine ⟨ihn, ihh, ihs, ihl, ?_, ?_⟩
        · intro j hj
          exact ihmono j (by rw [hbit]; simp [hj])
        · intro m hm hm'
          rcases Nat.eq_or_lt_of_le hm with he | hlt
          · subst he
            refine ⟨?_, probe_lt (by omega) .., hidx ▸ hib⟩
            apply ihmono
            rw [hbit, hidx]
            simp
          · exact ihpos m (by omega) (by omega)

/-- If every position the loop will probe is already set (and
addressable), the insert loop succeeds and leaves the filter unchanged. -/
lemma insertFrom_fixed {h1 h2 : Nat} :
    ∀ n i (f : BloomFilter),
      (∀ m, i ≤ m → m < i + n →
        BitVec.bit f.bits (probe f.bits.nbits h1 h2 m) = true ∧
        probe f.bits.nbits h1 h2 m < f.bits.nbits ∧
        probe f.bits.nbits h1 h2 m / 8 < f.bits.bytes.length) →
      insertFrom h1 h2 i n f = some f := by
  intro n
  induction n with
  | zero => intro i f _; rfl
  | succ n ih =>
    intro i f hpos
    obtain ⟨hbit, hlt, hb⟩ := hpos i (le_refl i) (by omega)
    have hn0 : f.bits.nbits ≠ 0 := by omega
    unfold insertFrom
    rw [bloomHash_eq hn0]
    dsimp only
    rw [BitVec.set_self hbit hlt hb]
    dsimp only
    have he : (⟨f.bits, f.nhashes, f.hashers⟩ : BloomFilter) = f := rfl
    rw [he]
    exact ih (i + 1) f (fun m hm hm' => hpos m (by omega) (by omega))

/-- With a well-formed, non-empty bit vector the insert loop cannot
panic. -/
lemma insertFrom_isSome {h1 h2 : Nat} :
    ∀ n i (f : BloomFilter), BitVec.WF f.bits → 0 < f.bits.nbits →
      ∃ g, insertFrom h1 h2 i n f = some g := by
  intro n
  induction n with
  | zero => intro i f _ _; exact ⟨f, rfl⟩
  | succ n ih =>
    intro i f hWF hpos
    have hn0 : f.bits.nbits ≠ 0 := by omega
    have hlt : probe f.bits.nbits h1 h2 i < f.bits.nbits := probe_lt hpos ..
    have hdb : probe f.bits.nbits h1 h2 i / 8 < f.bits.bytes.length := by
      rw [hWF.1]; exact BitVec.div8_lt_byteLength hlt
    have hset : (f.bits.set (probe f.bits.nbits h1 h2 i)).isSome := by
      rw [BitVec.set_isSome_iff hWF]; exact hlt
    obtain ⟨b, hb⟩ := Option.isSome_iff_exists.mp hset
    obtain ⟨_, _, hbn, hbl, _, _⟩ := BitVec.set_spec hb
    obtain ⟨g, hg⟩ := ih (i + 1) ⟨b, f.nhashes, f.hashers⟩
      (BitVec.wf_set hWF hb) (by simpa [hbn] using hpos)
    refine ⟨g, ?_⟩
    unfold insertFrom
    rw [bloomHash_eq hn0]
    dsimp only
    rw [hb]
    exact hg

/-- If every position the loop will probe is set (and addressable),
the contains loop returns `some true`. -/
lemma containsFrom_true {h1 h2 : Nat} :
    ∀ n i (f : BloomFilter),
      (∀ m, i ≤ m → m < i + n →
        BitVec.bit f.bits (probe f.bits.nbits h1 h2 m) = true ∧
        probe f.bits.nbits h1 h2 m < f.bits.nbits ∧
        probe f.bits.nbits h1 h2 m / 8 < f.bits.bytes.length) →
      containsFrom h1 h2 i n f = some true := by
  intro n
  induction n with
  | zero => intro i f _; rfl
  | succ n ih =>
    intro i f hpos
    obtain ⟨hbit, hlt, hb⟩ := hpos i (le_refl i) (by omega)
    have hn0 : f.bits.nbits ≠ 0 := by omega
    unfold containsFrom
    rw [bloomHash_eq hn0]
    dsimp only
    rw [BitVec.is_set_eq_bit hlt hb]
    dsimp only
    rw [hbit]
    simp only [if_true]
    exact ih (i + 1) f (fun m hm hm' => hpos m (by omega) (by omega))

/-- Conversely, `some true` from the contains loop means every probed
position is set and addressable. -/
lemma containsFrom_true_elim {h1 h2 : Nat} :
    ∀ n i (f : BloomFilter), containsFrom h1 h2 i n f = some true →
      ∀ m, i ≤ m → m < i + n →
        BitVec.bit f.bits (probe f.bits.nbits h1 h2 m) = true ∧
        probe f.bits.nbits h1 h2 m < f.bits.nbits ∧
        probe f.bits.nbits h1 h2 m / 8 < f.bits.bytes.length := by
  intro n
  induction n with
  | zero => intro i f _ m hm hm'; omega
  | succ n ih =>
    intro i f h m hm hm'
    unfold containsFrom at h
    cases hbh : f.bloomHash h1 h2 i with
    | none => rw [hbh] at h; exact absurd h (by simp)
    | some idx =>
      rw [hbh] at h
      dsimp only at h
      have hn0 : f.bits.nbits ≠ 0 := by
        unfold bloomHash at hbh
        by_contra hc
        rw [if_pos hc] at hbh
        exact absurd hbh (by simp)
      have hidx : idx = probe f.bits.nbits h1 h2 i := by
        rw [bloomHash_eq hn0] at hbh
        simpa using hbh.symm
      cases hq : f.bits.is_set idx with
      | none => rw [hq] at h; exact absurd h (by simp)
      | some b =>
        rw [hq] at h
        dsimp only at h
        cases b with
        | false => rw [if_neg (by simp)] at h; exact absurd h (by simp)
        | true =>
          rw [if_pos rfl] at h
          obtain ⟨hq1, hq2, hq3⟩ := BitVec.is_set_spec hq
          rcases Nat.eq_or_lt_of_le hm with he | hlt
          · subst he
            exact ⟨by rw [← hidx, ← hq3], by rw [← hidx]; exact hq1,
              by rw [← hidx]; exact hq2⟩
          · exact ih (i + 1) f h m (by omega) (by omega)

/-- With a well-formed, non-empty bit vector the contains loop cannot
panic. -/
lemma containsFrom_isSome {h1 h2 : Nat} :
    ∀ n i (f : BloomFilter), BitVec.WF f.bits → 0 < f.bits.nbits →
      (containsFrom h1 h2 i n f).isSome := by
  intro n
  induction n with
  | zero => intro i f _ _; rfl
  | succ n ih =>
    intro i f hWF hpos
    have hn0 : f.bits.nbits ≠ 0 := by omega
    have hlt : probe f.bits.nbits h1 h2 i < f.bits.nbits := probe_lt hpos ..
    have hdb : probe f.bits.nbits h1 h2 i / 8 < f.bits.bytes.length := by
      rw [hWF.1]; exact BitVec.div8_lt_byteLength hlt
    unfold containsFrom
    rw [bloomHash_eq hn0]
    dsimp only
    rw [BitVec.is_set_eq_bit hlt hdb]
    dsimp only
    cases hbit : BitVec.bit f.bits (probe f.bits.nbits h1 h2 i) with
    | false => simp
    | true =>
      simp only [if_true]
      exact ih (i + 1) f hWF hpos

/-- Insertion never panics halfway and then reports a missing item:
a successful insert makes `contains` of the same digests `some true`. -/
lemma insert_contains {A g : BloomFilter} {h1 h2 : Nat}
    (h : A.insert h1 h2 = some g) : g.contains h1 h2 = some true := by
  obtain ⟨hn, hh, _, hl, _, hpos⟩ := insertFrom_some A.nhashes 0 A g h
  unfold contains
  rw [hh]
  apply containsFrom_true
  intro m hm hm'
  rw [hn, hl]
  exact hpos m hm (by omega)

/-- A `some true` answer from `contains` survives any further
successful insert. -/
lemma contains_mono_insert {A A' : BloomFilter} {h1 h2 h3 h4 : Nat}
    (hc : A.contains h1 h2 = some true) (h : A.insert h3 h4 = some A') :
    A'.contains h1 h2 = some true := by
  obtain ⟨hn, hh, _, hl, hmono, _⟩ := insertFrom_some A.nhashes 0 A A' h
  have helim := containsFrom_true_elim A.nhashes 0 A hc
  unfold contains
  rw [hh]
  apply containsFrom_true
  intro m hm hm'
  obtain ⟨hb, hlt, hdb⟩ := helim m hm (by omega)
  rw [hn, hl]
  exact ⟨hmono _ hb, hlt, hdb⟩

/-- A `some true` answer from `contains` on the left operand survives
a successful filter union (the right operand being well formed). -/
lemma union_contains_left {X Y u : BloomFilter} {h1 h2 : Nat}
    (hu : X.union Y = some u) (hWFY : BitVec.WF Y.bits)
    (hX : X.contains h1 h2 = some true) : u.contains h1 h2 = some true := by
  obtain ⟨hcmp, hun, _, hbu⟩ := union_filter_spec hu
  obtain ⟨hXY, hunb, hub⟩ := BitVec.union_spec hbu
  have helim := containsFrom_true_elim X.nhashes 0 X hX
  unfold contains
  rw [hun]
  apply containsFrom_true
  intro m hm hm'
  obtain ⟨hb, hlt, hdb⟩ := helim m hm (by omega)
  have hdbY : probe X.bits.nbits h1 h2 m / 8 < Y.bits.bytes.length := by
    rw [hWFY.1]
    exact BitVec.div8_lt_byteLength (hXY ▸ hlt)
  refine ⟨?_, ?_, ?_⟩
  · rw [hunb, BitVec.bit_union hbu hdb hdbY, hb]
    simp
  · rw [hunb]; exact hlt
  · rw [hub, List.length_zipWith, hunb]
    omega

/-- A `some true` answer from `contains` on the right operand survives
a successful filter union (the left operand being well formed). -/
lemma union_contains_right {X Y u : BloomFilter} {h1 h2 : Nat}
    (hu : X.union Y = some u) (hWFX : BitVec.WF X.bits)
    (hY : Y.contains h1 h2 = some true) : u.contains h1 h2 = some true := by
  obtain ⟨hcmp, hun, _, hbu⟩ := union_filter_spec hu
  obtain ⟨hXY, hunb, hub⟩ := BitVec.union_spec hbu
  have hnh : X.nhashes = Y.nhashes := (is_comparable_spec.mp hcmp).1
  have helim := containsFrom_true_elim Y.nhashes 0 Y hY
  unfold contains
  rw [hun, hnh]
  apply containsFrom_true
  intro m hm hm'
  obtain ⟨hb, hlt, hdb⟩ := helim m hm (by omega)
  have hdbX : probe Y.bits.nbits h1 h2 m / 8 < X.bits.bytes.length := by
    rw [hWFX.1]
    exact BitVec.div8_lt_byteLength (hXY ▸ hlt)
  refine ⟨?_, ?_, ?_⟩
  · rw [hunb, hXY, BitVec.bit_union hbu hdbX hdb, hb]
    simp
  · rw [hunb, hXY]; exact hlt
  · rw [hub, List.length_zipWith, hunb, hXY]
    omega

/-- Inserting the digests of an item a second time returns the filter
unchanged. -/
lemma insert_idem {f g : BloomFilter} {h1 h2 : Nat}
    (h : f.insert h1 h2 = some g) : g.insert h1 h2 = some g := by
  obtain ⟨hn, hh, _, hl, _, hpos⟩ := insertFrom_some f.nhashes 0 f g h
  unfold insert
  rw [hh]
  apply insertFrom_fixed
  intro m hm hm'
  rw [hn, hl]
  exact hpos m hm (by omega)

end BloomFilter

/-! ### Numeric bounds for the sizing formulas -/

lemma log_five_fourths_bounds :
    (147409261 : ℝ) / 660602880 - 1 / 3145728 ≤ Real.log (5 / 4) ∧
    Real.log (5 / 4) ≤ (147409261 : ℝ) / 660602880 + 1 / 3145728 := by
  have habs : |(-(1/4) : ℝ)| = 1/4 := by
    rw [abs_neg, abs_of_pos] <;> norm_num
  have h := @Real.abs_log_sub_add_sum_range_le (-(1/4) : ℝ)
    (by rw [habs]; norm_num) 10
  have h54 : (1 : ℝ) - (-(1/4)) = 5/4 := by norm_num
  rw [h54, habs] at h
  have hsum : (∑ i in Finset.range 10, (-(1/4) : ℝ) ^ (i + 1) / (i + 1)) =
      -((147409261 : ℝ) / 660602880) := by
    simp only [Finset.sum_range_succ, Finset.sum_range_zero]
    norm_num
  rw [hsum] at h
  have hpow : ((1:ℝ)/4) ^ (10 + 1) / (1 - 1/4) = 1 / 3145728 := by
    norm_num
  rw [hpow] at h
  rw [abs_le] at h
  constructor <;> linarith [h.1, h.2]

lemma log_ten_gt : (2.3025847 : ℝ) < Real.log 10 := by
  have hdec : (10 : ℝ) = 2 ^ 3 * (5 / 4) := by norm_num
  rw [hdec, Real.log_mul (by norm_num) (by norm_num), Real.log_pow]
  have h2 := Real.log_two_gt_d9
  have h54 := log_five_fourths_bounds.1
  push_cast
  nlinarith [h2, h54]

lemma log_ten_lt : Real.log 10 < 2.3025855 := by
  have hdec : (10 : ℝ) = 2 ^ 3 * (5 / 4) := by norm_num
  rw [hdec, Real.log_mul (by norm_num) (by norm_num), Real.log_pow]
  have h2 := Real.log_two_lt_d9
  have h54 := log_five_fourths_bounds.2
  push_cast
  nlinarith [h2, h54]

lemma ln_sqr_bounds :
    (0.4804530134 : ℝ) < LN_SQR ∧ LN_SQR < 0.4804530143 := by
  unfold LN_SQR
  have hg := Real.log_two_gt_d9
  have hl := Real.log_two_lt_d9
  constructor <;> nlinarith [hg, hl]

lemma log_hundredth : Real.log (0.01 : ℝ) = -(2 * Real.log 10) := by
  have h1 : (0.01 : ℝ) = (100 : ℝ)⁻¹ := by norm_num
  have h2 : (100 : ℝ) = 10 ^ 2 := by norm_num
  rw [h1, Real.log_inv, h2, Real.log_pow]
  push_cast
  ring

lemma ln_sqr_pos : (0 : ℝ) < LN_SQR := by
  nlinarith [ln_sqr_bounds.1]

/-- Evaluate `optimal_bits c 0.01` once the surrounding bounds are
known: `optimal_bits c 0.01 = n` iff `(n-1) * LN_SQR < 2 ln 10 * c ≤
n * LN_SQR`. -/
lemma optimal_bits_hundredth_eq {c n : Nat}
    (hlo : ((n : ℝ) - 1) * LN_SQR < 2 * Real.log 10 * (c : ℝ))
    (hhi : 2 * Real.log 10 * (c : ℝ) ≤ (n : ℝ) * LN_SQR) :
    optimal_bits c (0.01 : ℝ) = n := by
  unfold optimal_bits
  rw [log_hundredth]
  have hx : -(-(2 * Real.log 10) * (c : ℝ) / LN_SQR) =
      2 * Real.log 10 * (c : ℝ) / LN_SQR := by ring
  rw [hx]
  have hceil : Int.ceil (2 * Real.log 10 * (c : ℝ) / LN_SQR) = (n : ℤ) := by
    rw [Int.ceil_eq_iff]
    constructor
    · rw [lt_div_iff ln_sqr_pos]
      push_cast
      linarith
    · rw [div_le_iff ln_sqr_pos]
      push_cast
      linarith
  rw [hceil]
  simp

/-- Evaluate `optimal_capacity m 0.01` from rational bounds:
`optimal_capacity m 0.01 = n` iff `n - 1/2 ≤ m * LN_SQR / (2 ln 10) <
n + 1/2`. -/
lemma optimal_capacity_hundredth_eq {m n : Nat}
    (hlo : ((n : ℝ) - 1 / 2) * (2 * Real.log 10) ≤ (m : ℝ) * LN_SQR)
    (hhi : (m : ℝ) * LN_SQR < ((n : ℝ) + 1 / 2) * (2 * Real.log 10)) :
    optimal_capacity m (0.01 : ℝ) = n := by
  unfold optimal_capacity
  rw [log_hundredth]
  have hten : (0 : ℝ) < 2 * Real.log 10 := by
    nlinarith [log_ten_gt]
  have hx : -(m : ℝ) * LN_SQR / -(2 * Real.log 10) =
      (m : ℝ) * LN_SQR / (2 * Real.log 10) := by
    rw [neg_mul, neg_div_neg_eq]
  rw [hx]
  have hnn : (0 : ℝ) ≤ (m : ℝ) * LN_SQR / (2 * Real.log 10) := by
    apply div_nonneg
    · exact mul_nonneg (Nat.cast_nonneg m) (le_of_lt ln_sqr_pos)
    · linarith
  unfold rustRound
  rw [if_pos hnn]
  have hfloor : ⌊(m : ℝ) * LN_SQR / (2 * Real.log 10) + 1 / 2⌋ = (n : ℤ) := by
    rw [Int.floor_eq_iff]
    constructor
    · push_cast
      rw [← sub_le_iff_le_add]
      rw [le_div_iff hten]
      linarith
    · push_cast
      rw [← lt_sub_iff_add_lt]
      rw [div_lt_iff hten]
      linarith
  rw [hfloor]
  simp

lemma log_two_pos : (0 : ℝ) < Real.log 2 := by
  nlinarith [Real.log_two_gt_d9]

/-- Evaluate `optimal_hashes`: with `capacity` positive and the
integer quotient `q = nbits / capacity`,
`optimal_hashes nbits capacity = n` iff `n - 1 < q ln 2 ≤ n`. -/
lemma optimal_hashes_eq {nbits capacity n : Nat} (hc : capacity ≠ 0)
    (hlo : ((n : ℝ) - 1) < ((nbits / capacity : Nat) : ℝ) * Real.log 2)
    (hhi : ((nbits / capacity : Nat) : ℝ) * Real.log 2 ≤ (n : ℝ)) :
    optimal_hashes nbits capacity = some n := by
  unfold optimal_hashes
  rw [if_neg hc]
  have hceil : Int.ceil (((nbits / capacity : Nat) : ℝ) * Real.log 2) = (n : ℤ) := by
    rw [Int.ceil_eq_iff]
    constructor
    · push_cast
      linarith
    · push_cast
      linarith
  rw [hceil]
  simp

lemma optimal_bits_1_eval : optimal_bits 1 (0.01 : ℝ) = 10 := by
  apply optimal_bits_hundredth_eq <;>
  · push_cast
    nlinarith [ln_sqr_bounds.1, ln_sqr_bounds.2, log_ten_gt, log_ten_lt]

lemma optimal_bits_128_eval : optimal_bits 128 (0.01 : ℝ) = 1227 := by
  apply optimal_bits_hundredth_eq <;>
  · push_cast
    nlinarith [ln_sqr_bounds.1, ln_sqr_bounds.2, log_ten_gt, log_ten_lt]

lemma optimal_bits_5000_eval : optimal_bits 5000 (0.01 : ℝ) = 47926 := by
  apply optimal_bits_hundredth_eq <;>
  · push_cast
    nlinarith [ln_sqr_bounds.1, ln_sqr_bounds.2, log_ten_gt, log_ten_lt]

lemma optimal_capacity_1227_eval : optimal_capacity 1227 (0.01 : ℝ) = 128 := by
  apply optimal_capacity_hundredth_eq <;>
  · push_cast
    nlinarith [ln_sqr_bounds.1, ln_sqr_bounds.2, log_ten_gt, log_ten_lt]

lemma optimal_capacity_47926_eval : optimal_capacity 47926 (0.01 : ℝ) = 5000 := by
  apply optimal_capacity_hundredth_eq <;>
  · push_cast
    nlinarith [ln_sqr_bounds.1, ln_sqr_bounds.2, log_ten_gt, log_ten_lt]

lemma optimal_capacity_16_eval : optimal_capacity 16 (0.01 : ℝ) = 2 := by
  apply optimal_capacity_hundredth_eq <;>
  · push_cast
    nlinarith [ln_sqr_bounds.1, ln_sqr_bounds.2, log_ten_gt, log_ten_lt]

lemma optimal_capacity_8_eval : optimal_capacity 8 (0.01 : ℝ) = 1 := by
  apply optimal_capacity_hundredth_eq <;>
  · push_cast
    nlinarith [ln_sqr_bounds.1, ln_sqr_bounds.2, log_ten_gt, log_ten_lt]

lemma optimal_hashes_10_1_eval : optimal_hashes 10 1 = some 7 := by
  apply optimal_hashes_eq (by norm_num) <;>
  · norm_num
    nlinarith [Real.log_two_gt_d9, Real.log_two_lt_d9]

lemma optimal_hashes_16_2_eval : optimal_hashes 16 2 = some 6 := by
  apply optimal_hashes_eq (by norm_num) <;>
  · norm_num
    nlinarith [Real.log_two_gt_d9, Real.log_two_lt_d9]

lemma optimal_hashes_8_1_eval : optimal_hashes 8 1 = some 6 := by
  apply optimal_hashes_eq (by norm_num) <;>
  · norm_num
    nlinarith [Real.log_two_gt_d9, Real.log_two_lt_d9]

/-! ### Claim theorems -/

open BloomFilter in
/-- C1: for every filter with positive bit-vector length and every
item (given by its digest pair `h1, h2`), `contains` answers
`some true` immediately after `insert`, still answers `some true`
after a further insert of another item, and keeps answering
`some true` on the union with any comparable well-formed filter,
whether the item was inserted into the left or the right operand —
no false negatives, preserved by union. -/
theorem c1_no_false_negatives
    (A B g g' u u' : BloomFilter) (h1 h2 h3 h4 : Nat)
    (hWFB : BitVec.WF B.bits)
    (hpos : 0 < A.bits.nbits)
    (hins : A.insert h1 h2 = some g)
    (hins2 : g.insert h3 h4 = some g')
    (hu : g'.union B = some u)
    (hu2 : B.union g' = some u') :
    g.contains h1 h2 = some true ∧
    g'.contains h1 h2 = some true ∧
    u.contains h1 h2 = some true ∧
    u'.contains h1 h2 = some true := by
  have hg := insert_contains hins
  have hg' := contains_mono_insert hg hins2
  exact ⟨hg, hg', union_contains_left hu hWFB hg',
    union_contains_right hu2 hWFB hg'⟩

/-- Witness for C1 at concrete inputs: an 8-bit filter with 2 hashes,
item digests (0, 1), a second item with digests (0, 0) and a
comparable filter with byte `[3]`. -/
theorem c1_no_false_negatives_witness :
    BitVec.WF (BitVec.mk [3] 8) ∧
    ((⟨⟨[5], 8⟩, 2, HASHER_SEEDS⟩ : BloomFilter).contains 0 1 = some true ∧
     (⟨⟨[7], 8⟩, 2, HASHER_SEEDS⟩ : BloomFilter).contains 0 1 = some true ∧
     (⟨⟨[7], 8⟩, 2, HASHER_SEEDS⟩ : BloomFilter).contains 0 1 = some true ∧
     (⟨⟨[7], 8⟩, 2, HASHER_SEEDS⟩ : BloomFilter).contains 0 1 = some true) :=
  ⟨by decide,
   c1_no_false_negatives
     ⟨⟨[0], 8⟩, 2, HASHER_SEEDS⟩ ⟨⟨[3], 8⟩, 2, HASHER_SEEDS⟩
     ⟨⟨[5], 8⟩, 2, HASHER_SEEDS⟩ ⟨⟨[7], 8⟩, 2, HASHER_SEEDS⟩
     ⟨⟨[7], 8⟩, 2, HASHER_SEEDS⟩ ⟨⟨[7], 8⟩, 2, HASHER_SEEDS⟩
     0 1 0 0 (by decide) (by decide) (by decide) (by decide)
     (by decide) (by decide)⟩

open BloomFilter in
/-- C4: insert is idempotent per unique item: performing `insert` of
the same digests `N >= 1` times from any filter state produces exactly
the same result (hence the same bit-vector state) as performing it
once. -/
theorem c4_insert_idempotent (f : BloomFilter) (h1 h2 N : Nat) (hN : 1 ≤ N) :
    insertN h1 h2 N f = f.insert h1 h2 := by
  induction N generalizing f with
  | zero => omega
  | succ n ih =>
    rcases Nat.eq_zero_or_pos n with h0 | hp
    · subst h0
      unfold insertN
      cases hf : f.insert h1 h2 with
      | none => rfl
      | some g => rfl
    · unfold insertN
      cases hf : f.insert h1 h2 with
      | none => rfl
      | some g =>
        have hred : (some g).bind (insertN h1 h2 n) = insertN h1 h2 n g := rfl
        rw [hred, ih g hp, insert_idem hf]

/-- Witness for C4: inserting digests (0, 1) twice into an 8-bit
filter equals inserting them once. -/
theorem c4_insert_idempotent_witness :
    1 ≤ 2 ∧
    BloomFilter.insertN 0 1 2 (⟨⟨[0], 8⟩, 2, HASHER_SEEDS⟩ : BloomFilter) =
      (⟨⟨[0], 8⟩, 2, HASHER_SEEDS⟩ : BloomFilter).insert 0 1 :=
  ⟨by decide, c4_insert_idempotent ⟨⟨[0], 8⟩, 2, HASHER_SEEDS⟩ 0 1 2 (by decide)⟩

/-- C5: on a well-formed bit vector, `set` and `is_set` panic exactly
when the index reaches `len()`: both fail at `index = len()` and both
succeed at `index = len() - 1` on a non-empty vector. -/
theorem c5_index_bounds (v : BitVec) (i : Nat) (hWF : BitVec.WF v) :
    (v.set i = none ↔ v.len ≤ i) ∧
    (v.is_set i = none ↔ v.len ≤ i) ∧
    v.set v.len = none ∧ v.is_set v.len = none ∧
    (0 < v.len → (v.set (v.len - 1)).isSome ∧ (v.is_set (v.len - 1)).isSome) := by
  have hset : ∀ m, v.set m = none ↔ v.len ≤ m := by
    intro m
    rw [← Option.not_isSome_iff_eq_none, BitVec.set_isSome_iff hWF,
      BitVec.len, Nat.not_lt]
  have hget : ∀ m, v.is_set m = none ↔ v.len ≤ m := by
    intro m
    rw [← Option.not_isSome_iff_eq_none, BitVec.is_set_isSome_iff hWF,
      BitVec.len, Nat.not_lt]
  refine ⟨hset i, hget i, (hset v.len).mpr (le_refl _),
    (hget v.len).mpr (le_refl _), ?_⟩
  intro hpos
  constructor
  · rw [BitVec.set_isSome_iff hWF]
    unfold BitVec.len at hpos ⊢
    omega
  · rw [BitVec.is_set_isSome_iff hWF]
    unfold BitVec.len at hpos ⊢
    omega

/-- Witness for C5 on the concrete well-formed vector `[0, 0]` with 10
logical bits, index 3. -/
theorem c5_index_bounds_witness :
    BitVec.WF (BitVec.mk [0, 0] 10) ∧
    (((BitVec.mk [0, 0] 10).set 3 = none ↔ (BitVec.mk [0, 0] 10).len ≤ 3) ∧
     ((BitVec.mk [0, 0] 10).is_set 3 = none ↔ (BitVec.mk [0, 0] 10).len ≤ 3) ∧
     (BitVec.mk [0, 0] 10).set (BitVec.mk [0, 0] 10).len = none ∧
     (BitVec.mk [0, 0] 10).is_set (BitVec.mk [0, 0] 10).len = none ∧
     (0 < (BitVec.mk [0, 0] 10).len →
       ((BitVec.mk [0, 0] 10).set ((BitVec.mk [0, 0] 10).len - 1)).isSome ∧
       ((BitVec.mk [0, 0] 10).is_set ((BitVec.mk [0, 0] 10).len - 1)).isSome)) :=
  ⟨by decide, c5_index_bounds (BitVec.mk [0, 0] 10) 3 (by decide)⟩

/-- C6: every bit vector reachable through the public API satisfies
the representation invariant (byte length `= ceil(nbits/8)`, `u8`
bytes, zero padding bits), and consequently `count_ones <= len` and
`count_zeros + count_ones = len`, i.e.
`count_zeros() = len() - count_ones()` without truncation. -/
theorem c6_reachable_invariant (v : BitVec) (hv : BitVec.Reachable v) :
    BitVec.WF v ∧ v.count_ones ≤ v.len ∧
    v.count_zeros + v.count_ones = v.len ∧
    v.count_zeros = v.len - v.count_ones := by
  have hWF := BitVec.wf_reachable hv
  have hle := BitVec.count_ones_le_len hWF
  refine ⟨hWF, hle, ?_, rfl⟩
  unfold BitVec.count_zeros
  omega

/-- Witness for C6 on the vector obtained by `new(10)` followed by
`set(3)`. -/
theorem c6_reachable_invariant_witness :
    BitVec.Reachable (BitVec.mk [8, 0] 10) ∧
    (BitVec.WF (BitVec.mk [8, 0] 10) ∧
     (BitVec.mk [8, 0] 10).count_ones ≤ (BitVec.mk [8, 0] 10).len ∧
     (BitVec.mk [8, 0] 10).count_zeros + (BitVec.mk [8, 0] 10).count_ones =
       (BitVec.mk [8, 0] 10).len ∧
     (BitVec.mk [8, 0] 10).count_zeros =
       (BitVec.mk [8, 0] 10).len - (BitVec.mk [8, 0] 10).count_ones) :=
  have hr : BitVec.Reachable (BitVec.mk [8, 0] 10) :=
    BitVec.Reachable.set (BitVec.new 10) (BitVec.mk [8, 0] 10) 3
      (BitVec.Reachable.new 10) (by decide)
  ⟨hr, c6_reachable_invariant (BitVec.mk [8, 0] 10) hr⟩

open BloomFilter in
/-- C9: with a well-formed bit vector of positive length, every bit
position computed by `bloom_hash` is strictly below `bits()` (it is
reduced modulo `bits()`), so neither `insert` nor `contains` can reach
the out-of-bounds panic inside `BitVec::set` / `BitVec::is_set`. -/
theorem c9_bloom_hash_in_bounds (f : BloomFilter) (h1 h2 i : Nat)
    (hWF : BitVec.WF f.bits) (hpos : 0 < f.bits.nbits) :
    f.bloomHash h1 h2 i = some (probe f.bits.nbits h1 h2 i) ∧
    probe f.bits.nbits h1 h2 i < f.bits.nbits ∧
    (f.insert h1 h2).isSome ∧ (f.contains h1 h2).isSome := by
  refine ⟨bloomHash_eq (by omega) .., probe_lt hpos .., ?_, ?_⟩
  · obtain ⟨g, hg⟩ := insertFrom_isSome f.nhashes 0 f hWF hpos
    unfold BloomFilter.insert
    rw [hg]
    rfl
  · exact containsFrom_isSome f.nhashes 0 f hWF hpos

/-- Witness for C9 on a concrete 8-bit filter with digests (5, 9),
probe index 1. -/
theorem c9_bloom_hash_in_bounds_witness :
    BitVec.WF (BitVec.mk [0] 8) ∧ (0 : Nat) < 8 ∧
    ((⟨⟨[0], 8⟩, 2, HASHER_SEEDS⟩ : BloomFilter).bloomHash 5 9 1 =
       some (BloomFilter.probe 8 5 9 1) ∧
     BloomFilter.probe 8 5 9 1 < 8 ∧
     ((⟨⟨[0], 8⟩, 2, HASHER_SEEDS⟩ : BloomFilter).insert 5 9).isSome ∧
     ((⟨⟨[0], 8⟩, 2, HASHER_SEEDS⟩ : BloomFilter).contains 5 9).isSome) :=
  ⟨by decide, by decide,
   c9_bloom_hash_in_bounds ⟨⟨[0], 8⟩, 2, HASHER_SEEDS⟩ 5 9 1
     (by decide) (by decide)⟩

/-- C10: constructing a filter with capacity 0 — `new(0)` or
`with_rate(0, r)` for any rate `r` — panics at construction time,
because `optimal_hashes` performs the integer division
`nbits / capacity` with `capacity = 0`. -/
theorem c10_zero_capacity_panics (r : ℝ) :
    BloomFilter.new 0 = none ∧ BloomFilter.with_rate 0 r = none := by
  have h : ∀ n, optimal_hashes n 0 = none := by
    intro n
    unfold optimal_hashes
    rw [if_pos rfl]
  constructor
  · unfold BloomFilter.new BloomFilter.with_rate
    dsimp only
    rw [h]
    rfl
  · unfold BloomFilter.with_rate
    dsimp only
    rw [h]
    rfl

/-- Counterexample to C3 as stated: at `nbits = 3`, `capacity = 2` the
code computes `ceil((3 / 2 : usize) * ln 2) = ceil(1 * ln 2) = 1`,
while the spec formula with exact real division gives
`ceil(1.5 * ln 2) = 2`. -/
theorem c3_counterexample :
    optimal_hashes 3 2 ≠ some (optimal_hashes_spec 3 2) := by
  have h1 : optimal_hashes 3 2 = some 1 := by
    apply optimal_hashes_eq (by norm_num) <;>
    · norm_num
      nlinarith [Real.log_two_gt_d9, Real.log_two_lt_d9]
  have h2 : optimal_hashes_spec 3 2 = 2 := by
    unfold optimal_hashes_spec
    have h32 : ((3 : ℕ) : ℝ) / ((2 : ℕ) : ℝ) = 3 / 2 := by norm_num
    rw [h32]
    have hceil : Int.ceil ((3 / 2 : ℝ) * Real.log 2) = 2 := by
      rw [Int.ceil_eq_iff]
      constructor
      · push_cast
        nlinarith [Real.log_two_gt_d9]
      · push_cast
        nlinarith [Real.log_two_lt_d9]
    rw [hceil]
    rfl
  rw [h1, h2]
  simp

/-- C3 amended: the hash count computed by `optimal_hashes(m, c)` is
`ceil((m / c) * ln 2)` with *integer* (floor) division `m / c`; it
agrees with the spec's exact real-valued division exactly as stated
whenever `c` divides `m` (in particular it is the real-division
formula applied to the integer quotient). -/
theorem c3_optimal_hashes_dvd (m c : Nat) (hc : 1 ≤ c) (hdvd : c ∣ m) :
    optimal_hashes m c = some (optimal_hashes_spec m c) := by
  unfold optimal_hashes optimal_hashes_spec
  rw [if_neg (by omega)]
  have hcast : ((m / c : Nat) : ℝ) = (m : ℝ) / (c : ℝ) :=
    Nat.cast_div hdvd (Nat.cast_ne_zero.mpr (by omega))
  rw [hcast]

/-- Witness for the amended C3 at `m = 4`, `c = 2`. -/
theorem c3_optimal_hashes_dvd_witness :
    1 ≤ 2 ∧ 2 ∣ 4 ∧ optimal_hashes 4 2 = some (optimal_hashes_spec 4 2) :=
  ⟨by norm_num, by norm_num, c3_optimal_hashes_dvd 4 2 (by norm_num) (by norm_num)⟩

/-- C8: the sizing fixtures hold: `optimal_capacity(optimal_bits(c, 0.01),
0.01) = c` for `c = 128` and `c = 5000`, and
`optimal_bits(5000, 0.01) = 47926`. -/
theorem c8_sizing_round_trip :
    optimal_capacity (optimal_bits 128 (0.01 : ℝ)) (0.01 : ℝ) = 128 ∧
    optimal_capacity (optimal_bits 5000 (0.01 : ℝ)) (0.01 : ℝ) = 5000 ∧
    optimal_bits 5000 (0.01 : ℝ) = 47926 := by
  rw [optimal_bits_128_eval, optimal_bits_5000_eval]
  exact ⟨optimal_capacity_1227_eval, optimal_capacity_47926_eval, rfl⟩

/-- Counterexample to C2 as stated: the filter `new(1)` has 10 logical
bits stored in 2 bytes; rebuilding it from its own 2 raw bytes yields
a filter with 16 logical bits and a different hash count, which is not
equal (in the `PartialEq` sense: bit vector and hash count) to the
original. -/
theorem c2_roundtrip_counterexample :
    BloomFilter.new 1 = some ⟨⟨[0, 0], 10⟩, 7, HASHER_SEEDS⟩ ∧
    BloomFilter.fromBytes
        (BloomFilter.toBytes ⟨⟨[0, 0], 10⟩, 7, HASHER_SEEDS⟩) =
      some ⟨⟨[0, 0], 16⟩, 6, HASHER_SEEDS⟩ ∧
    ¬ BloomFilter.filterEq ⟨⟨[0, 0], 16⟩, 6, HASHER_SEEDS⟩
        ⟨⟨[0, 0], 10⟩, 7, HASHER_SEEDS⟩ := by
  refine ⟨?_, ?_, by decide⟩
  · unfold BloomFilter.new BloomFilter.with_rate DEFAULT_FALSE_POSITIVE_RATE
    dsimp only
    rw [optimal_bits_1_eval, optimal_hashes_10_1_eval]
    rfl
  · unfold BloomFilter.fromBytes BloomFilter.toBytes DEFAULT_FALSE_POSITIVE_RATE
    dsimp only
    have h16 : (BitVec.fromBytes [0, 0]).len = 16 := rfl
    rw [h16, optimal_capacity_16_eval, optimal_hashes_16_2_eval]
    rfl

open BloomFilter in
lemma insertMany_shape :
    ∀ (ops : List (Nat × Nat)) (f g : BloomFilter),
      insertMany ops f = some g →
      g.bits.nbits = f.bits.nbits ∧
      g.bits.bytes.length = f.bits.bytes.length ∧
      g.nhashes = f.nhashes ∧ g.hashers = f.hashers := by
  intro ops
  induction ops with
  | nil =>
    intro f g h
    unfold insertMany at h
    simp only [Option.some.injEq] at h
    subst h
    exact ⟨rfl, rfl, rfl, rfl⟩
  | cons p ps ih =>
    intro f g h
    unfold insertMany at h
    cases hf : f.insert p.1 p.2 with
    | none => rw [hf] at h; exact absurd h (by simp)
    | some m =>
      rw [hf] at h
      obtain ⟨hn, hh, hs, hl, _, _⟩ := insertFrom_some f.nhashes 0 f m hf
      obtain ⟨ihn, ihl, ihh, ihs⟩ := ih m g h
      exact ⟨by rw [ihn, hn], by rw [ihl, hl], by rw [ihh, hh], by rw [ihs, hs]⟩

/-- C2 amended: the byte round-trip is the identity for every filter
built by `with_size` (whose bit count is a whole number of bytes) and
then subjected to any sequence of inserts: converting it to its raw
bytes and rebuilding at the default rate returns an equal filter.
(For `new` / `with_rate` the bit count is generally not a multiple of
8 and the round-trip changes the bit length, see the counterexample.) -/
theorem c2_roundtrip_with_size (nbytes : Nat) (f g : BloomFilter)
    (ops : List (Nat × Nat))
    (hf : BloomFilter.with_size nbytes = some f)
    (hg : BloomFilter.insertMany ops f = some g) :
    BloomFilter.fromBytes (BloomFilter.toBytes g) = some g := by
  unfold BloomFilter.with_size at hf
  dsimp only at hf
  cases hk : optimal_hashes (nbytes * 8)
      (optimal_capacity (nbytes * 8) DEFAULT_FALSE_POSITIVE_RATE) with
  | none => rw [hk] at hf; exact absurd hf (by simp)
  | some k =>
    rw [hk] at hf
    simp only [Option.bind_eq_bind, Option.some_bind, Option.pure_def,
      Option.some.injEq] at hf
    have hfv : f = ⟨BitVec.new (nbytes * 8), k, HASHER_SEEDS⟩ := hf.symm
    obtain ⟨ghn, ghl, ghh, ghs⟩ := insertMany_shape ops f g hg
    rw [hfv] at ghn ghl ghh ghs
    have hnewlen : (BitVec.new (nbytes * 8)).bytes.length = nbytes := by
      unfold BitVec.new byteLength
      rw [List.length_replicate, if_pos (by omega)]
      omega
    have hglen : g.bits.bytes.length = nbytes := by
      rw [ghl, hnewlen]
    have hgn : g.bits.nbits = nbytes * 8 := ghn
    have hbits : BitVec.fromBytes g.bits.bytes = g.bits := by
      unfold BitVec.fromBytes
      cases hb : g.bits with
      | mk bs nb =>
        simp only [BitVec.mk.injEq, true_and]
        have : bs.length = nbytes := by rw [← hglen, hb]
        rw [this]
        have : nb = nbytes * 8 := by rw [← hgn, hb]
        omega
    have hlen8 : (BitVec.fromBytes g.bits.bytes).len = nbytes * 8 := by
      rw [hbits, BitVec.len, hgn]
    unfold BloomFilter.fromBytes BloomFilter.toBytes
    dsimp only
    rw [hlen8, hk, hbits]
    simp only [Option.bind_eq_bind, Option.some_bind]
    congr 1
    cases g with
    | mk gb gh gs =>
      simp only at ghh ghs ⊢
      rw [ghh, ghs]

/-- Witness for the amended C2: `with_size(1)` (8 bits, one byte, 6
hashes) with no inserts round-trips to itself. -/
theorem c2_roundtrip_with_size_witness :
    BloomFilter.with_size 1 = some ⟨⟨[0], 8⟩, 6, HASHER_SEEDS⟩ ∧
    BloomFilter.insertMany [] (⟨⟨[0], 8⟩, 6, HASHER_SEEDS⟩ : BloomFilter) =
      some ⟨⟨[0], 8⟩, 6, HASHER_SEEDS⟩ ∧
    BloomFilter.fromBytes
        (BloomFilter.toBytes ⟨⟨[0], 8⟩, 6, HASHER_SEEDS⟩) =
      some ⟨⟨[0], 8⟩, 6, HASHER_SEEDS⟩ :=
  have hws : BloomFilter.with_size 1 = some ⟨⟨[0], 8⟩, 6, HASHER_SEEDS⟩ := by
    unfold BloomFilter.with_size DEFAULT_FALSE_POSITIVE_RATE
    dsimp only
    have h8 : (1 : Nat) * 8 = 8 := by norm_num
    rw [h8, optimal_capacity_8_eval, optimal_hashes_8_1_eval]
    rfl
  ⟨hws, rfl,
   c2_roundtrip_with_size 1 ⟨⟨[0], 8⟩, 6, HASHER_SEEDS⟩
     ⟨⟨[0], 8⟩, 6, HASHER_SEEDS⟩ [] hws rfl⟩

open BloomFilter in
/-- C7: `union`, `intersection`, `similarity` and `overlap` abort
(`none`) exactly when `is_comparable` is false; when it is true all
four complete and return a value.  (The model is purely functional, so
the inputs are left unchanged by construction.) -/
theorem c7_comparability_gate (a b : BloomFilter) :
    ((a.union b).isSome ↔ a.is_comparable b = true) ∧
    ((a.intersection b).isSome ↔ a.is_comparable b = true) ∧
    ((a.similarity b).isSome ↔ a.is_comparable b = true) ∧
    ((a.overlap b).isSome ↔ a.is_comparable b = true) := by
  by_cases hc : a.is_comparable b = true
  · have hnb : a.bits.nbits = b.bits.nbits := (is_comparable_spec.mp hc).2.1
    have hbu : a.bits.union b.bits =
        some ⟨List.zipWith (· ||| ·) a.bits.bytes b.bits.bytes, a.bits.nbits⟩ := by
      unfold BitVec.union
      rw [if_neg (by simp [hnb])]
    have hbi : a.bits.intersection b.bits =
        some ⟨List.zipWith (· &&& ·) a.bits.bytes b.bits.bytes, a.bits.nbits⟩ := by
      unfold BitVec.intersection
      rw [if_neg (by simp [hnb])]
    refine ⟨?_, ?_, ?_, ?_⟩ <;>
      simp [union, intersection, similarity, overlap, hc, hbu, hbi]
  · refine ⟨?_, ?_, ?_, ?_⟩ <;>
      simp [union, intersection, similarity, overlap, hc]

end Bloomy
